import Mathlib

/-!
Verification of the batch accumulation / chunked-upload pipeline of the
speech-collection backend (`src/main.py`).

The Python source is shallowly embedded here:
* a file on disk is a `FileEntry` (name plus content, content as a list of
  byte values); a directory is a list of `FileEntry`;
* the external store (Supabase `recordings` table) is an opaque collaborator,
  modelled as a function `String → Option String` from a task id to the
  transcript of the matching row, `none` when no row exists;
* the transfer channel (Telegram `send_document`) is an opaque collaborator,
  modelled by a success predicate `sendOk : Nat → Bool` (whether sending part
  `i` succeeds) and a message-id assignment `msgId : Nat → Nat`;
* the zip archiver (`zipfile`, an external library) is opaque, modelled as a
  function from the scratch directory contents to the archive's bytes.

Pure functions (`split_file`, `get_batch_size`, manifest construction) are
translated directly; `upload_batch` is translated as a state transformer
producing the final scratch directory, the surviving transient files, the
inserted `batches` rows and the trace of channel calls.
-/

namespace QuranCollector

/-- File contents, as a list of byte values. -/
abbrev Bytes := List Nat

/-- A file on disk: a name and its contents. -/
structure FileEntry where
  name : String
  content : Bytes
deriving DecidableEq

/-- `BATCH_SIZE_BYTES = 500 * 1024 * 1024` (main.py line 59): promotion threshold. -/
def BATCH_SIZE_BYTES : Nat := 500 * 1024 * 1024

/-- `CHUNK_SIZE_BYTES = 45 * 1024 * 1024` (main.py line 60): chunk ceiling. -/
def CHUNK_SIZE_BYTES : Nat := 45 * 1024 * 1024

/-- `get_batch_size` (main.py lines 225-226): sum of the sizes of all files in
the scratch directory `TEMP_DIR`. -/
def get_batch_size (files : List FileEntry) : Nat :=
  (files.map (fun f => f.content.length)).sum

/-- One `f.read(n)` call on a file positioned at the remaining bytes `l`:
returns the bytes read (at most `n`) and the rest of the file. -/
def readChunk : Nat → Bytes → Bytes × Bytes
  | 0, l => ([], l)
  | _ + 1, [] => ([], [])
  | n + 1, a :: as =>
    let p := readChunk n as
    (a :: p.1, p.2)

/-- The read loop of `split_file` (main.py lines 243-251).  `fuel` bounds the
number of iterations; each iteration that produces a part consumes at least
one byte of `src` (for a positive chunk size), so `fuel = src.length` suffices
and the fueled recursion computes exactly the Python `while True` loop. -/
def splitGo (chunk_size : Nat) : Nat → Bytes → List Bytes
  | 0, _ => []
  | _ + 1, [] => []
  | fuel + 1, a :: as =>
    let c := readChunk chunk_size (a :: as)
    if c.1.isEmpty then [] else c.1 :: splitGo chunk_size fuel c.2

/-- `split_file` (main.py lines 236-252): split `src` into parts of at most
`chunk_size` bytes, returned in index order (the contents of
`src.part001, src.part002, …`). -/
def split_file (src : Bytes) (chunk_size : Nat) : List Bytes :=
  splitGo chunk_size src.length src

/-- `p.unlink()` on a directory listing: remove the file named `n`. -/
def removeFile (files : List FileEntry) (n : String) : List FileEntry :=
  files.filter (fun f => f.name != n)

/-- `open(path, "wb")` followed by a write: create the file named `n` with
content `c`, replacing any existing file of that name (mode `"wb"` truncates). -/
def writeFile (files : List FileEntry) (n : String) (c : Bytes) : List FileEntry :=
  FileEntry.mk n c :: removeFile files n

/-- Read the content of the file named `n`, if present. -/
def readFile (files : List FileEntry) (n : String) : Option Bytes :=
  (files.find? (fun f => f.name == n)).map (fun f => f.content)

/-- String suffix test over the underlying character list (extensionally the
same as `String.endsWith`, stated this way so that it reduces in the kernel). -/
def strEndsWith (s tail : String) : Bool :=
  tail.data.isSuffixOf s.data

/-- `TEMP_DIR.glob("*.wav")` membership test. -/
def isWav (f : FileEntry) : Bool :=
  strEndsWith f.name ".wav"

/-- Python's string comparison: lexicographic on code points. -/
def charListLe : List Char → List Char → Bool
  | [], _ => true
  | _ :: _, [] => false
  | a :: as, b :: bs =>
    if a.toNat < b.toNat then true
    else if b.toNat < a.toNat then false
    else charListLe as bs

/-- Comparison used by `sorted(...)` on the scratch directory: the paths all
share the directory component, so path order is filename order. -/
def nameLe (a b : FileEntry) : Bool :=
  charListLe a.name.data b.name.data

/-- Insert a file into a name-sorted list, keeping it sorted. -/
def insertByName (f : FileEntry) : List FileEntry → List FileEntry
  | [] => [f]
  | g :: gs => if nameLe f g then f :: g :: gs else g :: insertByName f gs

/-- Sort a directory listing by filename (insertion sort). -/
def sortByName : List FileEntry → List FileEntry
  | [] => []
  | f :: fs => insertByName f (sortByName fs)

/-- `sorted(TEMP_DIR.glob("*.wav"))` (main.py line 272): the `*.wav` files of
the scratch directory in lexicographic filename order.  Modelled with
insertion sort; directory listings have pairwise-distinct names, so any sort
produces this same sequence. -/
def sortedWavs (files : List FileEntry) : List FileEntry :=
  sortByName (files.filter isWav)

/-- `wav.stem` for a `*.wav` path: the filename without its final suffix. -/
def wavStem (n : String) : String :=
  n.dropRight 4

/-- `resp.data["transcript"] if resp.data else ""` (main.py line 281): the
transcript of the store's `recordings` row for `task_id`, or the empty string
when the store has no row. -/
def transcriptFor (store : String → Option String) (task_id : String) : String :=
  match store task_id with
  | some t => t
  | none => ""

/-- One row of `metadata.csv` (main.py line 282). -/
structure ManifestRow where
  filename : String
  raw_transcript : String
deriving DecidableEq

/-- The `csv.DictWriter` fieldnames (main.py line 285): the manifest's header row. -/
def manifestFieldnames : List String :=
  ["filename", "raw_transcript"]

/-- The manifest-construction loop of `upload_batch` (main.py lines 271-282):
one row per `*.wav` file, in the order the files are enumerated. -/
def buildRows (wavs : List FileEntry) (store : String → Option String) : List ManifestRow :=
  wavs.map (fun w => ManifestRow.mk w.name (transcriptFor store (wavStem w.name)))

/-- Encoding of a string into file bytes (one byte value per code point; the
exact numeric coding is irrelevant to every property proved here). -/
def encStr (s : String) : Bytes :=
  s.data.map Char.toNat

/-- The bytes of `metadata.csv` as written by `csv.DictWriter` on a file opened
with `encoding="utf-8-sig"` (main.py lines 284-287): byte-order mark, header
row, then one line per manifest row. -/
def csvBytes (rows : List ManifestRow) : Bytes :=
  65279 :: (encStr "filename,raw_transcript" ++ [13, 10] ++
    (rows.map (fun r => encStr r.filename ++ [44] ++ encStr r.raw_transcript ++ [13, 10])).flatten)

/-- The scratch directory after step 1 of `upload_batch`: the original files
plus the freshly (re)written `metadata.csv`. -/
def scratchWithManifest (scratch0 : List FileEntry) (store : String → Option String) :
    List FileEntry :=
  writeFile scratch0 "metadata.csv" (csvBytes (buildRows (sortedWavs scratch0) store))

/-- The chunk sequence produced in step 3 of `upload_batch` (main.py line 300):
`split_file(zip_path, CHUNK_SIZE_BYTES)` applied to the archive built from the
scratch directory (manifest included).  `zipOf` is the opaque `zipfile`
collaborator producing the archive's bytes. -/
def batchParts (scratch0 : List FileEntry) (store : String → Option String)
    (zipOf : List FileEntry → Bytes) : List Bytes :=
  split_file (zipOf (scratchWithManifest scratch0 store)) CHUNK_SIZE_BYTES

/-- `f"{part_no:03d}"`: zero-padded three-digit part index. -/
def pad3 (n : Nat) : String :=
  if n < 10 then "00" ++ toString n
  else if n < 100 then "0" ++ toString n
  else toString n

/-- `f"/tmp/batch_{timestamp}.zip"` (main.py line 267), name component. -/
def zipNameOf (timestamp : String) : String :=
  "batch_" ++ timestamp ++ ".zip"

/-- `src.with_suffix(f".part{part_no:03d}")` (main.py line 248), name component. -/
def partNameOf (timestamp : String) (i : Nat) : String :=
  "batch_" ++ timestamp ++ ".part" ++ pad3 i

/-- One completed `bot.send_document` call (main.py lines 322-332): the 1-based
part index and the `reply_to_message_id` argument it carried. -/
structure SendCall where
  partIdx : Nat
  filename : String
  reply_to_message_id : Option Nat
deriving DecidableEq

/-- The upload loop of `upload_batch` (main.py lines 305-338), over the part
files still to send.  `i` is the 1-based loop index, `firstId` the current
`first_message_id`, `tmp` the transient files currently on disk.  Returns the
trace of completed send calls, whether the loop finished without a transfer
failure, and the transient files remaining on disk when the loop stopped
(each part is unlinked immediately after its successful send). -/
def sendParts (sendOk : Nat → Bool) (msgId : Nat → Nat) :
    Nat → Option Nat → List FileEntry → List FileEntry →
    List SendCall × Bool × List FileEntry
  | _, _, [], tmp => ([], true, tmp)
  | i, firstId, p :: rest, tmp =>
    if sendOk i then
      let call := SendCall.mk i p.name (if i > 1 then firstId else none)
      let newFirst := if i = 1 then some (msgId i) else firstId
      let r := sendParts sendOk msgId (i + 1) newFirst rest (removeFile tmp p.name)
      (call :: r.1, r.2.1, r.2.2)
    else
      ([], false, tmp)

/-- One row of the `batches` table (main.py lines 349-356).  The floating-point
`size_mb` field and the timestamp are omitted: no property here depends on
them. -/
structure BatchRecord where
  batch_name : String
  file_count : Nat
  parts : Nat
  status : String
deriving DecidableEq

/-- Observable outcome of one `upload_batch` attempt. -/
structure UploadResult where
  scratch : List FileEntry
  tmp : List FileEntry
  batches : List BatchRecord
  sends : List SendCall
  committed : Bool

/-- The transient part files written by `split_file` (main.py lines 248-250):
`batch_<timestamp>.part001, .part002, …` with the chunk contents. -/
def partFilesOf (timestamp : String) (scratch0 : List FileEntry)
    (store : String → Option String) (zipOf : List FileEntry → Bytes) : List FileEntry :=
  (batchParts scratch0 store zipOf).enum.map
    (fun p => FileEntry.mk (partNameOf timestamp (p.1 + 1)) p.2)

/-- The transient files on disk when the upload loop starts: the archive plus
every part file. -/
def tmp0Of (timestamp : String) (scratch0 : List FileEntry)
    (store : String → Option String) (zipOf : List FileEntry → Bytes) : List FileEntry :=
  FileEntry.mk (zipNameOf timestamp) (zipOf (scratchWithManifest scratch0 store)) ::
    partFilesOf timestamp scratch0 store zipOf

/-- The upload loop of `upload_batch`, started at part 1 with
`first_message_id = None` (main.py lines 305-338). -/
def sendResult (timestamp : String) (scratch0 : List FileEntry)
    (store : String → Option String) (zipOf : List FileEntry → Bytes)
    (sendOk : Nat → Bool) (msgId : Nat → Nat) : List SendCall × Bool × List FileEntry :=
  sendParts sendOk msgId 1 none (partFilesOf timestamp scratch0 store zipOf)
    (tmp0Of timestamp scratch0 store zipOf)

/-- `upload_batch` (main.py lines 257-362) as a state transformer.
`scratch0` is the scratch directory at entry, `store` the transcript
collaborator, `zipOf` the archive collaborator, `sendOk`/`msgId` the transfer
channel.  On full success: one `batches` row is inserted (`file_count` from the
manifest rows, `parts` from the chunk count), the archive is unlinked and the
scratch directory is removed and recreated empty.  On a transfer failure:
every remaining part file and the archive are unlinked (`missing_ok=True`),
no row is inserted, and the function returns with the scratch directory
(manifest included) untouched. -/
def upload_batch (timestamp : String) (scratch0 : List FileEntry)
    (store : String → Option String) (zipOf : List FileEntry → Bytes)
    (sendOk : Nat → Bool) (msgId : Nat → Nat) : UploadResult :=
  let r := sendResult timestamp scratch0 store zipOf sendOk msgId
  if r.2.1 then
    { scratch := [],
      tmp := removeFile r.2.2 (zipNameOf timestamp),
      batches := [BatchRecord.mk (zipNameOf timestamp)
        (buildRows (sortedWavs scratch0) store).length
        (batchParts scratch0 store zipOf).length "uploaded"],
      sends := r.1,
      committed := true }
  else
    { scratch := scratchWithManifest scratch0 store,
      tmp := removeFile
        (List.foldl removeFile r.2.2
          ((partFilesOf timestamp scratch0 store zipOf).map (fun f => f.name)))
        (zipNameOf timestamp),
      batches := [],
      sends := r.1,
      committed := false }

/-- State seen by the threshold gate of `submit`: the scratch directory and the
number of `upload_batch` tasks created so far. -/
structure GateState where
  scratch : List FileEntry
  started : Nat

/-- The threshold gate of `submit` (main.py lines 403-409), executed once per
completed submission.  The body of `async with upload_lock` contains no await
point other than the lock acquisition itself (`get_batch_size` and
`asyncio.create_task` are synchronous), so under the cooperative scheduler the
gated section runs atomically; `asyncio.create_task` only schedules
`upload_batch` — the new task runs no code (and in particular clears nothing)
before the gate returns.  A gate execution while an earlier promotion is still
in flight therefore reads the same, still-uncleared scratch directory at both
checks. -/
def submit_gate (st : GateState) : GateState :=
  if BATCH_SIZE_BYTES ≤ get_batch_size st.scratch then
    if BATCH_SIZE_BYTES ≤ get_batch_size st.scratch then
      { st with started := st.started + 1 }
    else st
  else st

/-- The file-system effect of an accepted `submit` call (main.py lines 391-393):
write the uploaded audio to `TEMP_DIR / f"{task_id}.wav"`. -/
def submit_write (scratch : List FileEntry) (task_id : String) (audio : Bytes) :
    List FileEntry :=
  writeFile scratch (task_id ++ ".wav") audio

theorem readChunk_eq (n : Nat) (l : Bytes) : readChunk n l = (l.take n, l.drop n) := by
  induction l generalizing n with
  | nil => cases n <;> rfl
  | cons a as ih =>
    cases n with
    | zero => rfl
    | succ n => simp [readChunk, ih, List.take_succ_cons, List.drop_succ_cons]

theorem splitGo_join (C : Nat) (hC : 0 < C) :
    ∀ fuel l, l.length ≤ fuel → (splitGo C fuel l).flatten = l := by
  intro fuel
  induction fuel with
  | zero =>
    intro l h
    have hl : l = [] := List.eq_nil_of_length_eq_zero (Nat.le_zero.mp h)
    subst hl; rfl
  | succ n ih =>
    intro l h
    cases l with
    | nil => rfl
    | cons a as =>
      have hne : ¬ (((a :: as).take C).isEmpty = true) := by
        cases C with
        | zero => exact absurd hC (Nat.lt_irrefl 0)
        | succ m => simp [List.take_succ_cons]
      have hdrop : ((a :: as).drop C).length ≤ n := by
        have h1 : (a :: as).length ≤ n + 1 := h
        have h2 : ((a :: as).drop C).length = (a :: as).length - C := List.length_drop C _
        omega
      simp only [splitGo, readChunk_eq, hne, if_false, Bool.false_eq_true]
      rw [List.flatten, ih _ hdrop, List.take_append_drop]

theorem splitGo_length (C : Nat) (hC : 0 < C) :
    ∀ fuel l, l.length ≤ fuel → (splitGo C fuel l).length = (l.length + C - 1) / C := by
  intro fuel
  induction fuel with
  | zero =>
    intro l h
    have hl : l = [] := List.eq_nil_of_length_eq_zero (Nat.le_zero.mp h)
    subst hl
    simp [splitGo, Nat.div_eq_of_lt (Nat.sub_lt hC Nat.one_pos)]
  | succ n ih =>
    intro l h
    cases l with
    | nil => simp [splitGo, Nat.div_eq_of_lt (Nat.sub_lt hC Nat.one_pos)]
    | cons a as =>
      have hne : ¬ (((a :: as).take C).isEmpty = true) := by
        cases C with
        | zero => exact absurd hC (Nat.lt_irrefl 0)
        | succ m => simp [List.take_succ_cons]
      have hdrop : ((a :: as).drop C).length ≤ n := by
        have h2 : ((a :: as).drop C).length = (a :: as).length - C := List.length_drop C _
        have h1 : (a :: as).length ≤ n + 1 := h
        omega
      simp only [splitGo, readChunk_eq, hne, if_false, Bool.false_eq_true]
      rw [List.length_cons, ih _ hdrop, List.length_drop]
      set L := (a :: as).length with hL
      have hL1 : 1 ≤ L := by simp [hL]
      by_cases hcase : L ≤ C
      · have hz : L - C = 0 := Nat.sub_eq_zero_of_le hcase
        rw [hz]
        have left : (0 + C - 1) / C = 0 := by
          exact Nat.div_eq_of_lt (by omega)
        have right : (L + C - 1) / C = 1 := by
          apply Nat.div_eq_of_lt_le <;> omega
        omega
      · have hCL : C < L := Nat.lt_of_not_le hcase
        have e1 : L - C + C - 1 = (L - 1 - C) + C := by omega
        have e2 : L + C - 1 = (L - 1) + C := by omega
        rw [e1, e2, Nat.add_div_right _ hC, Nat.add_div_right _ hC]
        have e3 : L - 1 - C + C = L - 1 := by omega
        have : (L - 1 - C) / C + 1 = (L - 1) / C := by
          have := Nat.add_div_right (L - 1 - C) hC
          rw [e3] at this
          omega
        omega

/-- C3: for every source of `S` bytes and chunk ceiling `C > 0`, concatenating
the parts returned by `split_file` in index order reproduces the original
bytes exactly, the number of parts is `⌈S / C⌉` (which is `0` when `S = 0`),
and a zero-length source yields zero parts. -/
theorem split_file_roundtrip (s : Bytes) (C : Nat) (hC : 0 < C) :
    (split_file s C).flatten = s ∧
    (split_file s C).length = (s.length + C - 1) / C ∧
    split_file ([] : Bytes) C = [] := by
  refine ⟨?_, ?_, rfl⟩
  · exact splitGo_join C hC s.length s (Nat.le_refl _)
  · exact splitGo_length C hC s.length s (Nat.le_refl _)

theorem split_file_roundtrip_witness :
    0 < 2 ∧
    ((split_file [7, 8, 9] 2).flatten = [7, 8, 9] ∧
      (split_file [7, 8, 9] 2).length = (([7, 8, 9] : Bytes).length + 2 - 1) / 2 ∧
      split_file ([] : Bytes) 2 = []) :=
  ⟨by decide, split_file_roundtrip [7, 8, 9] 2 (by decide)⟩

theorem mem_removeFile {f : FileEntry} {l : List FileEntry} {n : String} :
    f ∈ removeFile l n ↔ f ∈ l ∧ f.name ≠ n := by
  simp [removeFile, List.mem_filter, bne_iff_ne]

theorem mem_foldl_removeFile {f : FileEntry} :
    ∀ (ns : List String) (l : List FileEntry),
      f ∈ List.foldl removeFile l ns → f ∈ l ∧ f.name ∉ ns := by
  intro ns
  induction ns with
  | nil => intro l h; exact ⟨h, by simp⟩
  | cons n ns ih =>
    intro l h
    obtain ⟨h1, h2⟩ := ih (removeFile l n) h
    obtain ⟨h3, h4⟩ := mem_removeFile.mp h1
    refine ⟨h3, fun hm => ?_⟩
    rcases List.mem_cons.mp hm with he | hm'
    · exact h4 he
    · exact h2 hm'

theorem sendParts_tmp_mem (sendOk : Nat → Bool) (msgId : Nat → Nat) {f : FileEntry} :
    ∀ (pending : List FileEntry) (i : Nat) (firstId : Option Nat) (tmp : List FileEntry),
      f ∈ (sendParts sendOk msgId i firstId pending tmp).2.2 → f ∈ tmp := by
  intro pending
  induction pending with
  | nil => intro i firstId tmp h; exact h
  | cons p rest ih =>
    intro i firstId tmp h
    by_cases hOk : sendOk i = true
    · simp only [sendParts, hOk, if_true] at h
      exact (mem_removeFile.mp (ih _ _ _ h)).1
    · simp only [sendParts, hOk, if_false, Bool.false_eq_true] at h
      exact h

theorem sendParts_fails (sendOk : Nat → Bool) (msgId : Nat → Nat) :
    ∀ (pending : List FileEntry) (i : Nat) (firstId : Option Nat) (tmp : List FileEntry),
      (∃ j, j < pending.length ∧ sendOk (i + j) = false) →
      (sendParts sendOk msgId i firstId pending tmp).2.1 = false := by
  intro pending
  induction pending with
  | nil =>
    intro i firstId tmp h
    obtain ⟨j, hj, _⟩ := h
    exact absurd hj (by simp)
  | cons p rest ih =>
    intro i firstId tmp h
    by_cases hOk : sendOk i = true
    · simp only [sendParts, hOk, if_true]
      apply ih
      obtain ⟨j, hj, hfail⟩ := h
      cases j with
      | zero => rw [Nat.add_zero] at hfail; rw [hOk] at hfail; exact absurd hfail (by simp)
      | succ j' =>
        refine ⟨j', ?_, ?_⟩
        · simpa [Nat.succ_lt_succ_iff] using hj
        · have : i + 1 + j' = i + (j' + 1) := by omega
          rw [this]; exact hfail
    · simp only [sendParts, hOk, if_false, Bool.false_eq_true]

theorem cleanup_empty (t : List FileEntry) (names : List String) (z : String)
    (h : ∀ f ∈ t, f.name = z ∨ f.name ∈ names) :
    removeFile (List.foldl removeFile t names) z = [] := by
  rw [List.eq_nil_iff_forall_not_mem]
  intro f hf
  obtain ⟨h1, h2⟩ := mem_removeFile.mp hf
  obtain ⟨h3, h4⟩ := mem_foldl_removeFile names t h1
  rcases h f h3 with he | hm
  · exact h2 he
  · exact h4 hm

theorem length_partFilesOf (timestamp : String) (scratch0 : List FileEntry)
    (store : String → Option String) (zipOf : List FileEntry → Bytes) :
    (partFilesOf timestamp scratch0 store zipOf).length =
      (batchParts scratch0 store zipOf).length := by
  simp [partFilesOf]

theorem mem_tmp0Of {f : FileEntry} (timestamp : String) (scratch0 : List FileEntry)
    (store : String → Option String) (zipOf : List FileEntry → Bytes)
    (h : f ∈ tmp0Of timestamp scratch0 store zipOf) :
    f.name = zipNameOf timestamp ∨
      f.name ∈ (partFilesOf timestamp scratch0 store zipOf).map (fun g => g.name) := by
  rcases List.mem_cons.mp h with he | hm
  · left; rw [he]
  · right; exact List.mem_map_of_mem _ hm

theorem isWav_ne_manifest {f : FileEntry} (h : isWav f = true) : f.name ≠ "metadata.csv" := by
  intro he
  rw [isWav, he] at h
  exact absurd h (by decide)

/-- C1: if a chunk transfer fails on part `k` of `N` (`k < N`) during
`upload_batch`, then after the attempt no `BatchRecord` row is written to the
batches table, the scratch directory still contains every original
`*.wav` recording, and no transient part file and no archive file remain on
disk. -/
theorem upload_batch_failure_preserves
    (timestamp : String) (scratch0 : List FileEntry) (store : String → Option String)
    (zipOf : List FileEntry → Bytes) (sendOk : Nat → Bool) (msgId : Nat → Nat) (k : Nat)
    (hk1 : 1 ≤ k) (hkN : k < (batchParts scratch0 store zipOf).length)
    (hfail : sendOk k = false)
    (_hbefore : ∀ j, 1 ≤ j → j < k → sendOk j = true) :
    (upload_batch timestamp scratch0 store zipOf sendOk msgId).batches = [] ∧
    (upload_batch timestamp scratch0 store zipOf sendOk msgId).tmp = [] ∧
    ∀ f ∈ scratch0, isWav f = true →
      f ∈ (upload_batch timestamp scratch0 store zipOf sendOk msgId).scratch := by
  have hfalse : (sendResult timestamp scratch0 store zipOf sendOk msgId).2.1 = false := by
    apply sendParts_fails
    refine ⟨k - 1, ?_, ?_⟩
    · rw [length_partFilesOf]; omega
    · have : 1 + (k - 1) = k := by omega
      rw [this]; exact hfail
  have hub : upload_batch timestamp scratch0 store zipOf sendOk msgId =
      { scratch := scratchWithManifest scratch0 store,
        tmp := removeFile
          (List.foldl removeFile (sendResult timestamp scratch0 store zipOf sendOk msgId).2.2
            ((partFilesOf timestamp scratch0 store zipOf).map (fun f => f.name)))
          (zipNameOf timestamp),
        batches := [],
        sends := (sendResult timestamp scratch0 store zipOf sendOk msgId).1,
        committed := false } := by
    rw [upload_batch]
    simp only [hfalse, Bool.false_eq_true, if_false]
  rw [hub]
  refine ⟨rfl, ?_, ?_⟩
  · apply cleanup_empty
    intro f hf
    have hmem : f ∈ tmp0Of timestamp scratch0 store zipOf :=
      sendParts_tmp_mem sendOk msgId _ _ _ _ hf
    exact mem_tmp0Of timestamp scratch0 store zipOf hmem
  · intro f hf hw
    have hne : f.name ≠ "metadata.csv" := isWav_ne_manifest hw
    simp only [scratchWithManifest, writeFile]
    exact List.mem_cons_of_mem _ (mem_removeFile.mpr ⟨hf, hne⟩)

theorem upload_batch_failure_preserves_witness :
    ((1 : Nat) ≤ 1 ∧
      1 < (batchParts [FileEntry.mk "a.wav" [0]] (fun _ => none)
        (fun _ => List.replicate (CHUNK_SIZE_BYTES + 1) 0)).length ∧
      (fun _ => false : Nat → Bool) 1 = false) ∧
    ((upload_batch "T" [FileEntry.mk "a.wav" [0]] (fun _ => none)
        (fun _ => List.replicate (CHUNK_SIZE_BYTES + 1) 0) (fun _ => false)
        (fun _ => 0)).batches = [] ∧
      (upload_batch "T" [FileEntry.mk "a.wav" [0]] (fun _ => none)
        (fun _ => List.replicate (CHUNK_SIZE_BYTES + 1) 0) (fun _ => false)
        (fun _ => 0)).tmp = [] ∧
      ∀ f ∈ [FileEntry.mk "a.wav" [0]], isWav f = true →
        f ∈ (upload_batch "T" [FileEntry.mk "a.wav" [0]] (fun _ => none)
          (fun _ => List.replicate (CHUNK_SIZE_BYTES + 1) 0) (fun _ => false)
          (fun _ => 0)).scratch) := by
  have hC : 0 < CHUNK_SIZE_BYTES := by decide
  have hlen : 1 < (batchParts [FileEntry.mk "a.wav" [0]] (fun _ => none)
      (fun _ => List.replicate (CHUNK_SIZE_BYTES + 1) 0)).length := by
    show 1 < (split_file (List.replicate (CHUNK_SIZE_BYTES + 1) 0) CHUNK_SIZE_BYTES).length
    rw [split_file, splitGo_length CHUNK_SIZE_BYTES hC _ _ (Nat.le_refl _),
      List.length_replicate]
    have h2 : CHUNK_SIZE_BYTES + 1 + CHUNK_SIZE_BYTES - 1 = 2 * CHUNK_SIZE_BYTES := by omega
    rw [h2, Nat.mul_div_cancel _ hC]
    omega
  refine ⟨⟨Nat.le_refl 1, hlen, rfl⟩, ?_⟩
  exact upload_batch_failure_preserves "T" [FileEntry.mk "a.wav" [0]] (fun _ => none)
    (fun _ => List.replicate (CHUNK_SIZE_BYTES + 1) 0) (fun _ => false) (fun _ => 0) 1
    (Nat.le_refl 1) hlen rfl
    (fun j h1 h2 => absurd (lt_of_le_of_lt h1 h2) (lt_irrefl 1))

theorem sendParts_allOk_ok (sendOk : Nat → Bool) (msgId : Nat → Nat)
    (h : ∀ i, sendOk i = true) :
    ∀ (pending : List FileEntry) (i : Nat) (firstId : Option Nat) (tmp : List FileEntry),
      (sendParts sendOk msgId i firstId pending tmp).2.1 = true := by
  intro pending
  induction pending with
  | nil => intro i firstId tmp; rfl
  | cons p rest ih =>
    intro i firstId tmp
    simp only [sendParts, h i, if_true]
    exact ih _ _ _

theorem sendParts_allOk_tmp (sendOk : Nat → Bool) (msgId : Nat → Nat)
    (h : ∀ i, sendOk i = true) :
    ∀ (pending : List FileEntry) (i : Nat) (firstId : Option Nat) (tmp : List FileEntry),
      (sendParts sendOk msgId i firstId pending tmp).2.2 =
        List.foldl removeFile tmp (pending.map (fun f => f.name)) := by
  intro pending
  induction pending with
  | nil => intro i firstId tmp; rfl
  | cons p rest ih =>
    intro i firstId tmp
    simp only [sendParts, h i, if_true, List.map_cons, List.foldl_cons]
    exact ih _ _ _

theorem length_insertByName (f : FileEntry) :
    ∀ l : List FileEntry, (insertByName f l).length = l.length + 1 := by
  intro l
  induction l with
  | nil => rfl
  | cons g gs ih =>
    rw [insertByName]
    by_cases h : nameLe f g = true
    · rw [if_pos h]; rfl
    · rw [if_neg h, List.length_cons, ih, List.length_cons]

theorem length_sortByName : ∀ l : List FileEntry, (sortByName l).length = l.length := by
  intro l
  induction l with
  | nil => rfl
  | cons f fs ih =>
    rw [sortByName, length_insertByName, ih, List.length_cons]

theorem length_sortedWavs (files : List FileEntry) :
    (sortedWavs files).length = (files.filter isWav).length :=
  length_sortByName _

/-- C4: after a fully successful run of `upload_batch`, the scratch directory
is empty, exactly one `BatchRecord` row is inserted, with `parts` equal to the
number of chunks produced by `split_file` and `file_count` equal to the number
of `*.wav` files present at promotion time, and the archive file is deleted. -/
theorem upload_batch_success_commits
    (timestamp : String) (scratch0 : List FileEntry) (store : String → Option String)
    (zipOf : List FileEntry → Bytes) (sendOk : Nat → Bool) (msgId : Nat → Nat)
    (hok : ∀ i, sendOk i = true) :
    (upload_batch timestamp scratch0 store zipOf sendOk msgId).scratch = [] ∧
    (upload_batch timestamp scratch0 store zipOf sendOk msgId).tmp = [] ∧
    (upload_batch timestamp scratch0 store zipOf sendOk msgId).batches =
      [BatchRecord.mk (zipNameOf timestamp) (scratch0.filter isWav).length
        (batchParts scratch0 store zipOf).length "uploaded"] ∧
    (upload_batch timestamp scratch0 store zipOf sendOk msgId).committed = true := by
  have htrue : (sendResult timestamp scratch0 store zipOf sendOk msgId).2.1 = true := by
    rw [sendResult]; exact sendParts_allOk_ok sendOk msgId hok _ _ _ _
  have hub : upload_batch timestamp scratch0 store zipOf sendOk msgId =
      { scratch := [],
        tmp := removeFile (sendResult timestamp scratch0 store zipOf sendOk msgId).2.2
          (zipNameOf timestamp),
        batches := [BatchRecord.mk (zipNameOf timestamp)
          (buildRows (sortedWavs scratch0) store).length
          (batchParts scratch0 store zipOf).length "uploaded"],
        sends := (sendResult timestamp scratch0 store zipOf sendOk msgId).1,
        committed := true } := by
    rw [upload_batch]
    simp only [htrue, if_true]
  rw [hub]
  refine ⟨rfl, ?_, ?_, rfl⟩
  · show removeFile (sendResult timestamp scratch0 store zipOf sendOk msgId).2.2
      (zipNameOf timestamp) = []
    rw [sendResult, sendParts_allOk_tmp sendOk msgId hok]
    apply cleanup_empty
    intro f hf
    exact mem_tmp0Of timestamp scratch0 store zipOf hf
  · have hcount : (buildRows (sortedWavs scratch0) store).length =
        (scratch0.filter isWav).length := by
      rw [buildRows, List.length_map, length_sortedWavs]
    rw [hcount]

theorem upload_batch_success_commits_witness :
    (∀ i, (fun _ => true : Nat → Bool) i = true) ∧
    ((upload_batch "T" [FileEntry.mk "a.wav" [0]] (fun _ => none) (fun _ => [])
        (fun _ => true) (fun _ => 0)).scratch = [] ∧
      (upload_batch "T" [FileEntry.mk "a.wav" [0]] (fun _ => none) (fun _ => [])
        (fun _ => true) (fun _ => 0)).tmp = [] ∧
      (upload_batch "T" [FileEntry.mk "a.wav" [0]] (fun _ => none) (fun _ => [])
        (fun _ => true) (fun _ => 0)).batches =
        [BatchRecord.mk (zipNameOf "T") ([FileEntry.mk "a.wav" [0]].filter isWav).length
          (batchParts [FileEntry.mk "a.wav" [0]] (fun _ => none) (fun _ => [])).length
          "uploaded"] ∧
      (upload_batch "T" [FileEntry.mk "a.wav" [0]] (fun _ => none) (fun _ => [])
        (fun _ => true) (fun _ => 0)).committed = true) :=
  ⟨fun _ => rfl,
    upload_batch_success_commits "T" [FileEntry.mk "a.wav" [0]] (fun _ => none)
      (fun _ => []) (fun _ => true) (fun _ => 0) (fun _ => rfl)⟩

/-- C9: if the produced archive is zero bytes, so that `split_file` returns an
empty part list, `upload_batch` performs no send call and still commits: it
inserts a `BatchRecord` row with `parts = 0` and clears the scratch
directory, rather than treating the empty batch as an error. -/
theorem upload_batch_empty_archive
    (timestamp : String) (scratch0 : List FileEntry) (store : String → Option String)
    (zipOf : List FileEntry → Bytes) (sendOk : Nat → Bool) (msgId : Nat → Nat)
    (hz : zipOf (scratchWithManifest scratch0 store) = []) :
    (upload_batch timestamp scratch0 store zipOf sendOk msgId).sends = [] ∧
    (upload_batch timestamp scratch0 store zipOf sendOk msgId).committed = true ∧
    (upload_batch timestamp scratch0 store zipOf sendOk msgId).scratch = [] ∧
    (upload_batch timestamp scratch0 store zipOf sendOk msgId).batches =
      [BatchRecord.mk (zipNameOf timestamp)
        (buildRows (sortedWavs scratch0) store).length 0 "uploaded"] := by
  have hparts : batchParts scratch0 store zipOf = [] := by
    rw [batchParts, hz]; rfl
  have hpf : partFilesOf timestamp scratch0 store zipOf = [] := by
    rw [partFilesOf, hparts]; rfl
  have hsr : sendResult timestamp scratch0 store zipOf sendOk msgId =
      ([], true, tmp0Of timestamp scratch0 store zipOf) := by
    rw [sendResult, hpf]; rfl
  have hub : upload_batch timestamp scratch0 store zipOf sendOk msgId =
      { scratch := [],
        tmp := removeFile (tmp0Of timestamp scratch0 store zipOf) (zipNameOf timestamp),
        batches := [BatchRecord.mk (zipNameOf timestamp)
          (buildRows (sortedWavs scratch0) store).length
          (batchParts scratch0 store zipOf).length "uploaded"],
        sends := [],
        committed := true } := by
    rw [upload_batch, hsr]
    rfl
  rw [hub, hparts]
  exact ⟨rfl, rfl, rfl, rfl⟩

theorem upload_batch_empty_archive_witness :
    (fun _ => ([] : Bytes))
        (scratchWithManifest [FileEntry.mk "a.wav" [0]] (fun _ => none)) = [] ∧
    ((upload_batch "T" [FileEntry.mk "a.wav" [0]] (fun _ => none) (fun _ => [])
        (fun _ => false) (fun _ => 0)).sends = [] ∧
      (upload_batch "T" [FileEntry.mk "a.wav" [0]] (fun _ => none) (fun _ => [])
        (fun _ => false) (fun _ => 0)).committed = true ∧
      (upload_batch "T" [FileEntry.mk "a.wav" [0]] (fun _ => none) (fun _ => [])
        (fun _ => false) (fun _ => 0)).scratch = [] ∧
      (upload_batch "T" [FileEntry.mk "a.wav" [0]] (fun _ => none) (fun _ => [])
        (fun _ => false) (fun _ => 0)).batches =
        [BatchRecord.mk (zipNameOf "T")
          (buildRows (sortedWavs [FileEntry.mk "a.wav" [0]]) (fun _ => none)).length 0
          "uploaded"]) :=
  ⟨rfl,
    upload_batch_empty_archive "T" [FileEntry.mk "a.wav" [0]] (fun _ => none)
      (fun _ => []) (fun _ => false) (fun _ => 0) rfl⟩

/-- C10: after a failed upload attempt, the transient manifest `metadata.csv`
remains inside the scratch directory (the failure cleanup deletes only part
files and the archive), and its size is included in the pending byte total
computed by `get_batch_size`. -/
theorem failed_upload_keeps_manifest
    (timestamp : String) (scratch0 : List FileEntry) (store : String → Option String)
    (zipOf : List FileEntry → Bytes) (sendOk : Nat → Bool) (msgId : Nat → Nat) (k : Nat)
    (hk1 : 1 ≤ k) (hkN : k ≤ (batchParts scratch0 store zipOf).length)
    (hfail : sendOk k = false) :
    readFile (upload_batch timestamp scratch0 store zipOf sendOk msgId).scratch
      "metadata.csv" = some (csvBytes (buildRows (sortedWavs scratch0) store)) ∧
    get_batch_size (upload_batch timestamp scratch0 store zipOf sendOk msgId).scratch =
      (csvBytes (buildRows (sortedWavs scratch0) store)).length +
        get_batch_size (removeFile scratch0 "metadata.csv") := by
  have hfalse : (sendResult timestamp scratch0 store zipOf sendOk msgId).2.1 = false := by
    apply sendParts_fails
    refine ⟨k - 1, ?_, ?_⟩
    · rw [length_partFilesOf]; omega
    · have : 1 + (k - 1) = k := by omega
      rw [this]; exact hfail
  have hscratch : (upload_batch timestamp scratch0 store zipOf sendOk msgId).scratch =
      scratchWithManifest scratch0 store := by
    rw [upload_batch]
    simp only [hfalse, Bool.false_eq_true, if_false]
  rw [hscratch, scratchWithManifest, writeFile]
  constructor
  · simp [readFile, List.find?]
  · simp [get_batch_size]

theorem failed_upload_keeps_manifest_witness :
    ((1 : Nat) ≤ 1 ∧
      1 ≤ (batchParts [FileEntry.mk "a.wav" [0]] (fun _ => none)
        (fun _ => List.replicate (CHUNK_SIZE_BYTES + 1) 0)).length ∧
      (fun _ => false : Nat → Bool) 1 = false) ∧
    (readFile (upload_batch "U" [FileEntry.mk "a.wav" [0]] (fun _ => none)
        (fun _ => List.replicate (CHUNK_SIZE_BYTES + 1) 0) (fun _ => false)
        (fun _ => 0)).scratch "metadata.csv" =
      some (csvBytes (buildRows (sortedWavs [FileEntry.mk "a.wav" [0]]) (fun _ => none))) ∧
      get_batch_size (upload_batch "U" [FileEntry.mk "a.wav" [0]] (fun _ => none)
        (fun _ => List.replicate (CHUNK_SIZE_BYTES + 1) 0) (fun _ => false)
        (fun _ => 0)).scratch =
        (csvBytes (buildRows (sortedWavs [FileEntry.mk "a.wav" [0]])
          (fun _ => none))).length +
          get_batch_size (removeFile [FileEntry.mk "a.wav" [0]] "metadata.csv")) := by
  have hC : 0 < CHUNK_SIZE_BYTES := by decide
  have hlen : (batchParts [FileEntry.mk "a.wav" [0]] (fun _ => none)
      (fun _ => List.replicate (CHUNK_SIZE_BYTES + 1) 0)).length = 2 := by
    show (split_file (List.replicate (CHUNK_SIZE_BYTES + 1) 0) CHUNK_SIZE_BYTES).length = 2
    rw [split_file, splitGo_length CHUNK_SIZE_BYTES hC _ _ (Nat.le_refl _),
      List.length_replicate]
    have h2 : CHUNK_SIZE_BYTES + 1 + CHUNK_SIZE_BYTES - 1 = 2 * CHUNK_SIZE_BYTES := by omega
    rw [h2, Nat.mul_div_cancel _ hC]
  refine ⟨⟨Nat.le_refl 1, by rw [hlen]; omega, rfl⟩, ?_⟩
  exact failed_upload_keeps_manifest "U" [FileEntry.mk "a.wav" [0]] (fun _ => none)
    (fun _ => List.replicate (CHUNK_SIZE_BYTES + 1) 0) (fun _ => false) (fun _ => 0) 1
    (Nat.le_refl 1) (by rw [hlen]; omega) rfl

theorem charListLe_total : ∀ as bs, charListLe as bs = false → charListLe bs as = true := by
  intro as
  induction as with
  | nil => intro bs h; exact absurd h (by simp [charListLe])
  | cons a as ih =>
    intro bs h
    cases bs with
    | nil => rfl
    | cons b bs' =>
      simp only [charListLe] at h ⊢
      by_cases h1 : a.toNat < b.toNat
      · rw [if_pos h1] at h
        exact absurd h (by simp)
      · rw [if_neg h1] at h
        by_cases h2 : b.toNat < a.toNat
        · rw [if_pos h2]
        · rw [if_neg h2] at h
          rw [if_neg h2, if_neg h1]
          exact ih bs' h

theorem charListLe_trans :
    ∀ as bs cs, charListLe as bs = true → charListLe bs cs = true →
      charListLe as cs = true := by
  intro as
  induction as with
  | nil => intro bs cs _ _; rfl
  | cons a as ih =>
    intro bs cs h1 h2
    cases bs with
    | nil => exact absurd h1 (by simp [charListLe])
    | cons b bs' =>
      cases cs with
      | nil => exact absurd h2 (by simp [charListLe])
      | cons c cs' =>
        simp only [charListLe] at h1 h2 ⊢
        by_cases hab : a.toNat < b.toNat
        · by_cases hbc : b.toNat < c.toNat
          · rw [if_pos (by omega : a.toNat < c.toNat)]
          · rw [if_neg hbc] at h2
            by_cases hcb : c.toNat < b.toNat
            · rw [if_pos hcb] at h2
              exact absurd h2 (by simp)
            · rw [if_pos (by omega : a.toNat < c.toNat)]
        · rw [if_neg hab] at h1
          by_cases hba : b.toNat < a.toNat
          · rw [if_pos hba] at h1
            exact absurd h1 (by simp)
          · rw [if_neg hba] at h1
            by_cases hbc : b.toNat < c.toNat
            · rw [if_pos (by omega : a.toNat < c.toNat)]
            · rw [if_neg hbc] at h2
              by_cases hcb : c.toNat < b.toNat
              · rw [if_pos hcb] at h2
                exact absurd h2 (by simp)
              · rw [if_neg hcb] at h2
                rw [if_neg (by omega : ¬ a.toNat < c.toNat),
                  if_neg (by omega : ¬ c.toNat < a.toNat)]
                exact ih bs' cs' h1 h2

theorem nameLe_total {a b : FileEntry} (h : nameLe a b = false) : nameLe b a = true :=
  charListLe_total _ _ h

theorem nameLe_trans {a b c : FileEntry} (h1 : nameLe a b = true)
    (h2 : nameLe b c = true) : nameLe a c = true :=
  charListLe_trans _ _ _ h1 h2

theorem mem_insertByName {x f : FileEntry} :
    ∀ l : List FileEntry, x ∈ insertByName f l ↔ x = f ∨ x ∈ l := by
  intro l
  induction l with
  | nil => simp [insertByName]
  | cons g gs ih =>
    rw [insertByName]
    by_cases h : nameLe f g = true
    · rw [if_pos h]
      simp [List.mem_cons]
    · rw [if_neg h]
      simp only [List.mem_cons, ih]
      tauto

theorem insertByName_pairwise {f : FileEntry} :
    ∀ {l : List FileEntry}, l.Pairwise (fun a b => nameLe a b = true) →
      (insertByName f l).Pairwise (fun a b => nameLe a b = true) := by
  intro l
  induction l with
  | nil => intro _; simp [insertByName]
  | cons g gs ih =>
    intro hl
    obtain ⟨hg, hgs⟩ := List.pairwise_cons.mp hl
    rw [insertByName]
    by_cases h : nameLe f g = true
    · rw [if_pos h]
      refine List.Pairwise.cons ?_ hl
      intro x hx
      rcases List.mem_cons.mp hx with he | hx'
      · rw [he]; exact h
      · exact nameLe_trans h (hg x hx')
    · rw [if_neg h]
      refine List.Pairwise.cons ?_ (ih hgs)
      intro x hx
      rcases (mem_insertByName _).mp hx with he | hx'
      · rw [he]
        exact nameLe_total (Bool.eq_false_iff.mpr h)
      · exact hg x hx'

theorem sortByName_pairwise :
    ∀ l : List FileEntry, (sortByName l).Pairwise (fun a b => nameLe a b = true) := by
  intro l
  induction l with
  | nil => exact List.Pairwise.nil
  | cons f fs ih => exact insertByName_pairwise ih

/-- C7: the manifest lists one row per `*.wav` file, in lexicographically
sorted filename order, under the header row `filename,raw_transcript`; in
particular, for recordings `b.wav`, `a.wav`, `c.wav` in the scratch directory
the row order is `a.wav`, `b.wav`, `c.wav`. -/
theorem manifest_rows_sorted (scratch0 : List FileEntry) (store : String → Option String) :
    (buildRows (sortedWavs scratch0) store).map (fun r => r.filename) =
      (sortedWavs scratch0).map (fun f => f.name) ∧
    ((sortedWavs scratch0).map (fun f => f.name)).Pairwise
      (fun a b => charListLe a.data b.data = true) ∧
    (buildRows (sortedWavs [FileEntry.mk "b.wav" [1], FileEntry.mk "a.wav" [2],
        FileEntry.mk "c.wav" [3]]) (fun _ => none)).map (fun r => r.filename) =
      ["a.wav", "b.wav", "c.wav"] ∧
    manifestFieldnames = ["filename", "raw_transcript"] := by
  refine ⟨?_, ?_, by decide, rfl⟩
  · rw [buildRows, List.map_map]
    rfl
  · rw [List.pairwise_map]
    exact sortByName_pairwise _

/-- C5: during manifest construction, a `*.wav` file whose `task_id` has no
`recordings` row in the external store gets the empty string as its manifest
transcript, and the batch promotion does not fail because of it: a promotion
whose transfers all succeed commits even though the store returned no row. -/
theorem missing_transcript_uses_empty
    (timestamp : String) (scratch0 : List FileEntry) (store : String → Option String)
    (zipOf : List FileEntry → Bytes) (sendOk : Nat → Bool) (msgId : Nat → Nat)
    (hok : ∀ i, sendOk i = true) :
    (∀ w ∈ sortedWavs scratch0, store (wavStem w.name) = none →
      ManifestRow.mk w.name "" ∈ buildRows (sortedWavs scratch0) store) ∧
    (upload_batch timestamp scratch0 store zipOf sendOk msgId).committed = true := by
  constructor
  · intro w hw hnone
    have hmem : ManifestRow.mk w.name (transcriptFor store (wavStem w.name)) ∈
        buildRows (sortedWavs scratch0) store :=
      List.mem_map_of_mem _ hw
    rw [transcriptFor, hnone] at hmem
    exact hmem
  · have htrue : (sendResult timestamp scratch0 store zipOf sendOk msgId).2.1 = true := by
      rw [sendResult]; exact sendParts_allOk_ok sendOk msgId hok _ _ _ _
    rw [upload_batch]
    simp only [htrue, if_true]

theorem missing_transcript_uses_empty_witness :
    (∀ i, (fun _ => true : Nat → Bool) i = true) ∧
    ((∀ w ∈ sortedWavs [FileEntry.mk "t.wav" [0]],
        (fun _ => (none : Option String)) (wavStem w.name) = none →
        ManifestRow.mk w.name "" ∈
          buildRows (sortedWavs [FileEntry.mk "t.wav" [0]]) (fun _ => none)) ∧
      (upload_batch "T2" [FileEntry.mk "t.wav" [0]] (fun _ => none) (fun _ => [])
        (fun _ => true) (fun _ => 0)).committed = true) :=
  ⟨fun _ => rfl,
    missing_transcript_uses_empty "T2" [FileEntry.mk "t.wav" [0]] (fun _ => none)
      (fun _ => []) (fun _ => true) (fun _ => 0) (fun _ => rfl)⟩

theorem sendParts_allOk_len (sendOk : Nat → Bool) (msgId : Nat → Nat)
    (h : ∀ i, sendOk i = true) :
    ∀ (pending : List FileEntry) (i : Nat) (firstId : Option Nat) (tmp : List FileEntry),
      ((sendParts sendOk msgId i firstId pending tmp).1).length = pending.length := by
  intro pending
  induction pending with
  | nil => intro i firstId tmp; rfl
  | cons p rest ih =>
    intro i firstId tmp
    simp only [sendParts, h i, if_true, List.length_cons]
    rw [ih]

theorem sendParts_allOk_get (sendOk : Nat → Bool) (msgId : Nat → Nat)
    (h : ∀ i, sendOk i = true) :
    ∀ (pending : List FileEntry) (i : Nat) (firstId : Option Nat) (tmp : List FileEntry),
      2 ≤ i → ∀ j, j < pending.length →
      ∃ nm, ((sendParts sendOk msgId i firstId pending tmp).1)[j]? =
        some (SendCall.mk (i + j) nm firstId) := by
  intro pending
  induction pending with
  | nil => intro i firstId tmp hi j hj; exact absurd hj (by simp)
  | cons p rest ih =>
    intro i firstId tmp hi j hj
    have hgt : i > 1 := hi
    have hne : ¬ i = 1 := by omega
    have e1 : (if i > 1 then firstId else none) = firstId := if_pos hgt
    have e2 : (if i = 1 then some (msgId i) else firstId) = firstId := if_neg hne
    have he : (sendParts sendOk msgId i firstId (p :: rest) tmp).1 =
        SendCall.mk i p.name firstId ::
          (sendParts sendOk msgId (i + 1) firstId rest (removeFile tmp p.name)).1 := by
      simp only [sendParts, h i, if_true, e1, e2]
    rw [he]
    cases j with
    | zero => exact ⟨p.name, by simp⟩
    | succ j' =>
      have hj' : j' < rest.length := by simpa using hj
      obtain ⟨nm, hnm⟩ := ih (i + 1) firstId (removeFile tmp p.name) (by omega) j' hj'
      refine ⟨nm, ?_⟩
      rw [List.getElem?_cons_succ, hnm]
      have e3 : i + 1 + j' = i + (j' + 1) := by omega
      rw [e3]

theorem sendParts_from_one (sendOk : Nat → Bool) (msgId : Nat → Nat)
    (h : ∀ i, sendOk i = true) :
    ∀ (pending : List FileEntry) (tmp : List FileEntry) (j : Nat), j < pending.length →
      ∃ nm, ((sendParts sendOk msgId 1 none pending tmp).1)[j]? =
        some (SendCall.mk (j + 1) nm (if j = 0 then none else some (msgId 1))) := by
  intro pending tmp j hj
  cases pending with
  | nil => exact absurd hj (by simp)
  | cons p rest =>
    have e1 : (if (1 : Nat) > 1 then (none : Option Nat) else none) = none := rfl
    have e2 : (if (1 : Nat) = 1 then some (msgId 1) else none) = some (msgId 1) := rfl
    have he : (sendParts sendOk msgId 1 none (p :: rest) tmp).1 =
        SendCall.mk 1 p.name none ::
          (sendParts sendOk msgId 2 (some (msgId 1)) rest (removeFile tmp p.name)).1 := by
      simp only [sendParts, h 1, if_true, e1, e2]
    rw [he]
    cases j with
    | zero => exact ⟨p.name, by simp⟩
    | succ j' =>
      have hj' : j' < rest.length := by simpa using hj
      obtain ⟨nm, hnm⟩ := sendParts_allOk_get sendOk msgId h rest 2 (some (msgId 1))
        (removeFile tmp p.name) (Nat.le_refl 2) j' hj'
      refine ⟨nm, ?_⟩
      rw [List.getElem?_cons_succ, hnm]
      have e3 : 2 + j' = j' + 1 + 1 := by omega
      rw [e3]
      simp

/-- C6: for every multi-part upload (at least two chunks), the completed send
calls come strictly in index order: the call at position `j` of the trace is
for part `j + 1`; part 1's call carries no `reply_to_message_id`, and every
later part's call carries part 1's returned message identifier. -/
theorem upload_batch_reply_threading
    (timestamp : String) (scratch0 : List FileEntry) (store : String → Option String)
    (zipOf : List FileEntry → Bytes) (sendOk : Nat → Bool) (msgId : Nat → Nat)
    (hok : ∀ i, sendOk i = true)
    (_hN : 2 ≤ (batchParts scratch0 store zipOf).length) :
    (upload_batch timestamp scratch0 store zipOf sendOk msgId).sends.length =
      (batchParts scratch0 store zipOf).length ∧
    ∀ j, j < (batchParts scratch0 store zipOf).length →
      ∃ nm, ((upload_batch timestamp scratch0 store zipOf sendOk msgId).sends)[j]? =
        some (SendCall.mk (j + 1) nm (if j = 0 then none else some (msgId 1))) := by
  have htrue : (sendResult timestamp scratch0 store zipOf sendOk msgId).2.1 = true := by
    rw [sendResult]; exact sendParts_allOk_ok sendOk msgId hok _ _ _ _
  have hsends : (upload_batch timestamp scratch0 store zipOf sendOk msgId).sends =
      (sendResult timestamp scratch0 store zipOf sendOk msgId).1 := by
    rw [upload_batch]
    simp only [htrue, if_true]
  rw [hsends, sendResult]
  constructor
  · rw [sendParts_allOk_len sendOk msgId hok, length_partFilesOf]
  · intro j hj
    exact sendParts_from_one sendOk msgId hok _ _ j
      (by rw [length_partFilesOf]; exact hj)

theorem batchParts_big_length :
    (batchParts [FileEntry.mk "a.wav" [0]] (fun _ => none)
      (fun _ => List.replicate (CHUNK_SIZE_BYTES + 1) 0)).length = 2 := by
  have hC : 0 < CHUNK_SIZE_BYTES := by decide
  show (split_file (List.replicate (CHUNK_SIZE_BYTES + 1) 0) CHUNK_SIZE_BYTES).length = 2
  rw [split_file, splitGo_length CHUNK_SIZE_BYTES hC _ _ (Nat.le_refl _),
    List.length_replicate]
  have h2 : CHUNK_SIZE_BYTES + 1 + CHUNK_SIZE_BYTES - 1 = 2 * CHUNK_SIZE_BYTES := by omega
  rw [h2, Nat.mul_div_cancel _ hC]

theorem upload_batch_reply_threading_witness :
    ((∀ i, (fun _ => true : Nat → Bool) i = true) ∧
      2 ≤ (batchParts [FileEntry.mk "a.wav" [0]] (fun _ => none)
        (fun _ => List.replicate (CHUNK_SIZE_BYTES + 1) 0)).length) ∧
    ((upload_batch "V" [FileEntry.mk "a.wav" [0]] (fun _ => none)
        (fun _ => List.replicate (CHUNK_SIZE_BYTES + 1) 0) (fun _ => true)
        (fun _ => 7)).sends.length =
      (batchParts [FileEntry.mk "a.wav" [0]] (fun _ => none)
        (fun _ => List.replicate (CHUNK_SIZE_BYTES + 1) 0)).length ∧
      ∀ j, j < (batchParts [FileEntry.mk "a.wav" [0]] (fun _ => none)
          (fun _ => List.replicate (CHUNK_SIZE_BYTES + 1) 0)).length →
        ∃ nm, ((upload_batch "V" [FileEntry.mk "a.wav" [0]] (fun _ => none)
            (fun _ => List.replicate (CHUNK_SIZE_BYTES + 1) 0) (fun _ => true)
            (fun _ => 7)).sends)[j]? =
          some (SendCall.mk (j + 1) nm
            (if j = 0 then none else some ((fun _ => 7 : Nat → Nat) 1)))) := by
  refine ⟨⟨fun _ => rfl, by rw [batchParts_big_length]⟩, ?_⟩
  exact upload_batch_reply_threading "V" [FileEntry.mk "a.wav" [0]] (fun _ => none)
    (fun _ => List.replicate (CHUNK_SIZE_BYTES + 1) 0) (fun _ => true) (fun _ => 7)
    (fun _ => rfl) (by rw [batchParts_big_length])

/-- C2 (evidence of the code bug): with one `*.wav` file of exactly the
threshold size in the scratch directory, two executions of the threshold gate
of `submit` — the schedule of two concurrent submissions serialised by
`upload_lock` while the first spawned `upload_batch` task has not yet run its
clearing step — create two `upload_batch` tasks.  The claimed invariant
(exactly one promotion is started, no second promotion begins) is violated:
the inner re-check reads the still-uncleared directory, and nothing records
that a promotion is already in flight. -/
theorem submit_gate_double_promotion :
    BATCH_SIZE_BYTES ≤
      get_batch_size [FileEntry.mk "a.wav" (List.replicate BATCH_SIZE_BYTES 0)] ∧
    (submit_gate (submit_gate
      (GateState.mk [FileEntry.mk "a.wav" (List.replicate BATCH_SIZE_BYTES 0)] 0))).started
      = 2 := by
  have hsize : get_batch_size [FileEntry.mk "a.wav" (List.replicate BATCH_SIZE_BYTES 0)] =
      BATCH_SIZE_BYTES := by
    simp [get_batch_size]
  refine ⟨le_of_eq hsize.symm, ?_⟩
  have hgate : ∀ n, submit_gate
      (GateState.mk [FileEntry.mk "a.wav" (List.replicate BATCH_SIZE_BYTES 0)] n) =
      GateState.mk [FileEntry.mk "a.wav" (List.replicate BATCH_SIZE_BYTES 0)] (n + 1) := by
    intro n
    rw [submit_gate]
    simp only [hsize, le_refl, if_true]
  rw [hgate 0, hgate 1]

/-- C8 (counterexample): a second accepted `submit` call that reuses an
existing task identifier replaces the recording file's contents (the file is
opened in mode `"wb"`, which truncates), so a `PendingRecording` is not
immutable between creation and promotion. -/
theorem submit_same_task_overwrites :
    readFile (submit_write (submit_write [] "t" [1]) "t" [2]) ("t" ++ ".wav") = some [2] ∧
    readFile (submit_write [] "t" [1]) ("t" ++ ".wav") = some [1] ∧
    readFile (submit_write (submit_write [] "t" [1]) "t" [2]) ("t" ++ ".wav") ≠
      readFile (submit_write [] "t" [1]) ("t" ++ ".wav") := by
  refine ⟨?_, ?_, ?_⟩ <;> decide

theorem readFile_cons_of_ne {f : FileEntry} {fs : List FileEntry} {m : String}
    (hm : (f.name == m) = false) : readFile (f :: fs) m = readFile fs m := by
  rw [readFile, List.find?_cons_of_neg _ (by rw [hm]; exact Bool.false_ne_true)]
  rfl

theorem readFile_removeFile {scratch : List FileEntry} {n m : String} (h : m ≠ n) :
    readFile (removeFile scratch n) m = readFile scratch m := by
  induction scratch with
  | nil => rfl
  | cons f fs ih =>
    have hrem : removeFile (f :: fs) n =
        if (f.name != n) = true then f :: removeFile fs n else removeFile fs n := by
      rw [removeFile, List.filter_cons]
      rfl
    by_cases hf : f.name = n
    · have hb : (f.name != n) = false := by
        rw [bne_eq_false_iff_eq]; exact hf
      rw [hrem, hb, if_neg (by simp), ih]
      have hm : (f.name == m) = false := by
        rw [beq_eq_false_iff_ne, hf]
        exact fun he => h he.symm
      rw [readFile_cons_of_ne hm]
    · have hb : (f.name != n) = true := by
        rw [bne_iff_ne]; exact hf
      rw [hrem, hb, if_pos rfl]
      by_cases hm : f.name = m
      · rw [readFile, readFile,
          List.find?_cons_of_pos _ (by rw [hm]; exact beq_self_eq_true m),
          List.find?_cons_of_pos _ (by rw [hm]; exact beq_self_eq_true m)]
      · have hm' : (f.name == m) = false := beq_eq_false_iff_ne.mpr hm
        rw [readFile_cons_of_ne hm', readFile_cons_of_ne hm', ih]

theorem append_wav_injective {tid tid' : String}
    (h : (tid' ++ ".wav" : String) = tid ++ ".wav") : tid' = tid := by
  have hd : (tid' ++ ".wav" : String).data = (tid ++ ".wav" : String).data :=
    congrArg String.data h
  rw [String.data_append, String.data_append] at hd
  have := List.append_cancel_right hd
  exact congrArg String.mk this

/-- C8 (amended): a `PendingRecording` is never mutated by a later accepted
`submit` call with a *different* task identifier — only a `submit` that reuses
the same task identifier overwrites the file.  So for every sequence of
accepted `submit` calls with pairwise-distinct task identifiers, a recording's
contents never change after creation (outside a committed promotion). -/
theorem submit_distinct_preserves
    (scratch : List FileEntry) (tid tid' : String) (b : Bytes)
    (h : tid ≠ tid') :
    readFile (submit_write scratch tid' b) (tid ++ ".wav") =
      readFile scratch (tid ++ ".wav") := by
  have hne : ((tid' ++ ".wav" : String) == (tid ++ ".wav" : String)) = false := by
    rw [beq_eq_false_iff_ne]
    intro he
    exact h (append_wav_injective he).symm
  rw [submit_write, writeFile, readFile,
    List.find?_cons_of_neg _ (by rw [hne]; exact Bool.false_ne_true)]
  show readFile (removeFile scratch (tid' ++ ".wav")) (tid ++ ".wav") =
    readFile scratch (tid ++ ".wav")
  exact readFile_removeFile (fun he => h (append_wav_injective he.symm).symm)

theorem submit_distinct_preserves_witness :
    ("a" : String) ≠ "b" ∧
    readFile (submit_write [FileEntry.mk "a.wav" [5]] "b" [7]) ("a" ++ ".wav") =
      readFile [FileEntry.mk "a.wav" [5]] ("a" ++ ".wav") :=
  ⟨by decide, submit_distinct_preserves [FileEntry.mk "a.wav" [5]] "a" "b" [7] (by decide)⟩

end QuranCollector
